import Mathlib

/-!
# EnigmaCSP — formal model of the integration layer

This file embeds the integration layer of the EnigmaCSP constraint solver
(`src/src/integration.rs`) in Lean 4 and proves the specification claims
about it.

The repository snapshot contains `integration.rs` but not the modules it
builds on (`csp.rs`, `normalizer.rs`, `norm_csp.rs`, `encoder.rs`,
`sat.rs`).  Definitions that transcribe `integration.rs` are marked as
such; definitions that stand in for the missing modules carry a doc
comment starting with `Modelled from the spec:` and follow the
natural-language specification (sections 3, 4.1, 4.3, 4.4, 4.5, 6, 7).
-/

namespace EnigmaCSP

/-! ## Domains

Modelled from the spec (section 3): a `Domain` is "a finite set of
integers stored as a sorted list of disjoint closed ranges"; `csp.rs`
is not part of the snapshot. -/

/-- Modelled from the spec: a domain is a sorted list of disjoint closed
integer ranges (`csp.rs` is not in the snapshot). -/
structure Domain where
  ranges : List (Int × Int)
deriving DecidableEq

/-- The closed integer range from `lo` to `hi` as a list. -/
def rangeList (lo hi : Int) : List Int :=
  (List.range (hi + 1 - lo).toNat).map (fun (i : Nat) => lo + (i : Int))

namespace Domain

/-- Modelled from the spec: `Domain::range(lo, hi)`. -/
def range (lo hi : Int) : Domain := ⟨[(lo, hi)]⟩

/-- Modelled from the spec: materialize the domain as the sorted list of
its member values (used by the encoder and by `IntegrationTester::check`). -/
def enumerate (d : Domain) : List Int :=
  d.ranges.flatMap (fun r => rangeList r.1 r.2)

/-- Modelled from the spec: the smallest value of the domain (the lower
bound of its first range).  Only meaningful for non-empty domains. -/
def lower_bound (d : Domain) : Int :=
  match d.ranges with
  | [] => 0
  | r :: _ => r.1

/-- Well-formedness of a domain, following the spec (section 3): the range
list is non-empty, every range is non-degenerate, and the ranges are
sorted and disjoint. -/
def WF (d : Domain) : Prop :=
  d.ranges ≠ [] ∧ (∀ r ∈ d.ranges, r.1 ≤ r.2) ∧
    d.ranges.Pairwise (fun r s => r.2 < s.1)

instance (d : Domain) : Decidable d.WF := by
  unfold WF; infer_instance

end Domain

/-! ## Association lists

The Rust code stores variable values and the two mapping tables in hash
maps.  We model them as association lists over `Nat` keys, built in key
order, with overwrite-on-insert semantics matching `HashMap::insert`. -/

/-- Lookup in an association list (models `HashMap::get`). -/
def alookup {β : Type} : List (Nat × β) → Nat → Option β
  | [], _ => none
  | (k, x) :: rest, key => if k = key then some x else alookup rest key

/-- Insert into an association list, overwriting an existing binding
(models `HashMap::insert`). -/
def ainsert {β : Type} : List (Nat × β) → Nat → β → List (Nat × β)
  | [], k, v => [(k, v)]
  | (k', v') :: rest, k, v =>
      if k' = k then (k, v) :: rest else (k', v') :: ainsert rest k v

/-! ## Assignments

Modelled from the spec (section 4.1): an `Assignment` maps Boolean and
integer variable handles to values; `csp.rs` is not in the snapshot.
Variable handles (`BoolVar(usize)`, `IntVar(usize)`) are dense indices
and are modelled as `Nat`. -/

/-- Modelled from the spec: an assignment of values to Boolean and
integer CSP variables (`Assignment` in `csp.rs`, stored as two hash
maps). -/
structure Assignment where
  bool_val : List (Nat × Bool)
  int_val : List (Nat × Int)
deriving DecidableEq

namespace Assignment

/-- Modelled from the spec: `Assignment::new()`. -/
def new : Assignment := ⟨[], []⟩

/-- Modelled from the spec: `Assignment::set_bool`. -/
def set_bool (a : Assignment) (v : Nat) (b : Bool) : Assignment :=
  ⟨ainsert a.bool_val v b, a.int_val⟩

/-- Modelled from the spec: `Assignment::set_int`. -/
def set_int (a : Assignment) (v : Nat) (x : Int) : Assignment :=
  ⟨a.bool_val, ainsert a.int_val v x⟩

/-- Value of a Boolean variable under the assignment (`false` if unset;
evaluation is only ever used on assignments that cover every variable
occurring in the expression). -/
def boolAt (a : Assignment) (v : Nat) : Bool :=
  (alookup a.bool_val v).getD false

/-- Value of an integer variable under the assignment (`0` if unset). -/
def intAt (a : Assignment) (v : Nat) : Int :=
  (alookup a.int_val v).getD 0

end Assignment

/-! ## Expression trees

Modelled from the spec (section 3): `BoolExpr` is a tree over constants,
variable references, `not`/`and`/`or`/`xor`/`iff`/`imp`, comparisons of
integer expressions and Boolean `ite`; `IntExpr` is a tree over
constants, variable references, negation, sums and integer `ite`
(`csp.rs` is not in the snapshot; the constructors used by
`integration.rs` are `Or`, `Not`, `Var` and `Cmp`-via-`ne`). -/

/-- Comparison operators on integer expressions (spec section 3). -/
inductive CmpOp : Type where
  | Eq | Ne | Le | Lt | Ge | Gt
deriving DecidableEq

mutual
/-- Modelled from the spec: the Boolean expression tree of the CSP IR. -/
inductive BoolExpr : Type where
  | Const : Bool → BoolExpr
  | Var : Nat → BoolExpr
  | Not : BoolExpr → BoolExpr
  | And : List BoolExpr → BoolExpr
  | Or : List BoolExpr → BoolExpr
  | Xor : BoolExpr → BoolExpr → BoolExpr
  | Iff : BoolExpr → BoolExpr → BoolExpr
  | Imp : BoolExpr → BoolExpr → BoolExpr
  | Cmp : CmpOp → IntExpr → IntExpr → BoolExpr
  | Ite : BoolExpr → BoolExpr → BoolExpr → BoolExpr

/-- Modelled from the spec: the integer expression tree of the CSP IR. -/
inductive IntExpr : Type where
  | Const : Int → IntExpr
  | Var : Nat → IntExpr
  | Neg : IntExpr → IntExpr
  | Add : IntExpr → IntExpr → IntExpr
  | Ite : BoolExpr → IntExpr → IntExpr → IntExpr
end

/-- Semantics of a comparison operator (spec section 4.1: "comparisons
yield Booleans"). -/
def CmpOp.apply : CmpOp → Int → Int → Bool
  | .Eq, a, b => decide (a = b)
  | .Ne, a, b => decide (a ≠ b)
  | .Le, a, b => decide (a ≤ b)
  | .Lt, a, b => decide (a < b)
  | .Ge, a, b => decide (b ≤ a)
  | .Gt, a, b => decide (b < a)

mutual
/-- Modelled from the spec: `Assignment::eval_bool_expr` (section 4.1):
classical two-valued connectives, `iff` is equality, `xor` inequality,
`imp(a,b) = not a or b`, `ite` returns the matching branch. -/
def eval_bool_expr (A : Assignment) : BoolExpr → Bool
  | .Const b => b
  | .Var v => A.boolAt v
  | .Not e => !(eval_bool_expr A e)
  | .And es => evalConj A es
  | .Or es => evalDisj A es
  | .Xor a b => eval_bool_expr A a != eval_bool_expr A b
  | .Iff a b => eval_bool_expr A a == eval_bool_expr A b
  | .Imp a b => !(eval_bool_expr A a) || eval_bool_expr A b
  | .Cmp op a b => op.apply (eval_int_expr A a) (eval_int_expr A b)
  | .Ite c t e => bif eval_bool_expr A c then eval_bool_expr A t else eval_bool_expr A e

/-- Conjunction of a list of Boolean expressions under an assignment. -/
def evalConj (A : Assignment) : List BoolExpr → Bool
  | [] => true
  | e :: rest => eval_bool_expr A e && evalConj A rest

/-- Disjunction of a list of Boolean expressions under an assignment. -/
def evalDisj (A : Assignment) : List BoolExpr → Bool
  | [] => false
  | e :: rest => eval_bool_expr A e || evalDisj A rest

/-- Modelled from the spec: `Assignment::eval_int_expr` (section 4.1):
"arithmetic is over ordinary integers". -/
def eval_int_expr (A : Assignment) : IntExpr → Int
  | .Const n => n
  | .Var v => A.intAt v
  | .Neg e => -(eval_int_expr A e)
  | .Add a b => eval_int_expr A a + eval_int_expr A b
  | .Ite c t e => if eval_bool_expr A c then eval_int_expr A t else eval_int_expr A e
end

/-! ## Statements and the CSP container -/

/-- Modelled from the spec: a statement is either a Boolean expression
asserted true or an `all-different` constraint over integer expressions
(`Stmt` in `csp.rs`). -/
inductive Stmt : Type where
  | Expr : BoolExpr → Stmt
  | AllDifferent : List IntExpr → Stmt

/-- Modelled from the spec: the user-facing CSP: ordered variable lists
plus an ordered statement list (`CSP` in `csp.rs`).  Boolean variables
carry no data, so only their count matters; integer variables carry
their domain. -/
structure CSP where
  bool_var_count : Nat
  int_var_domains : List Domain
  stmts : List Stmt

namespace CSP

/-- Modelled from the spec: `CSP::new()`. -/
def new : CSP := ⟨0, [], []⟩

/-- Modelled from the spec: `CSP::new_bool_var` allocates the next dense
Boolean handle. -/
def new_bool_var (c : CSP) : CSP × Nat :=
  (⟨c.bool_var_count + 1, c.int_var_domains, c.stmts⟩, c.bool_var_count)

/-- Modelled from the spec: `CSP::new_int_var` allocates the next dense
integer handle with the given domain. -/
def new_int_var (c : CSP) (d : Domain) : CSP × Nat :=
  (⟨c.bool_var_count, c.int_var_domains ++ [d], c.stmts⟩, c.int_var_domains.length)

/-- Modelled from the spec: `CSP::add_constraint` appends a statement. -/
def add_constraint (c : CSP) (s : Stmt) : CSP :=
  ⟨c.bool_var_count, c.int_var_domains, c.stmts ++ [s]⟩

/-- Transcribed from `integration.rs` (`IntegratedSolver::add_expr`):
wrap the expression as a statement and append it. -/
def add_expr (c : CSP) (e : BoolExpr) : CSP :=
  c.add_constraint (Stmt.Expr e)

/-- The domain of integer variable `v` (indexing
`csp.vars.int_var[v].domain`; out-of-range reads never occur for
allocated handles). -/
def int_domain (c : CSP) (v : Nat) : Domain :=
  c.int_var_domains.getD v ⟨[]⟩

end CSP

/-- Pairwise distinctness of a list of integers (spec section 4.1:
`all-different(xs)` holds iff the values are pairwise distinct). -/
def pairwiseNe : List Int → Bool
  | [] => true
  | x :: xs => xs.all (fun y => x != y) && pairwiseNe xs

/-- Satisfaction of a single statement under an assignment
(spec section 4.1). -/
def satisfiesStmt (A : Assignment) : Stmt → Bool
  | .Expr e => eval_bool_expr A e
  | .AllDifferent es => pairwiseNe (es.map (eval_int_expr A))

/-- Satisfaction of every statement of a CSP under an assignment
(the semantics used by `IntegrationTester::is_satisfied_csp`). -/
def satisfiesCSP (A : Assignment) (c : CSP) : Bool :=
  c.stmts.all (satisfiesStmt A)

/-! ## Variable occurrence

The normalizer maps a CSP variable lazily, "only when it appears in a
retained statement" (spec section 4.3).  The following functions compute
syntactic occurrence of a variable in an expression or statement. -/

mutual
/-- Does Boolean variable `v` occur in the Boolean expression? -/
def occursBoolB (v : Nat) : BoolExpr → Bool
  | .Const _ => false
  | .Var w => w == v
  | .Not e => occursBoolB v e
  | .And es => occursBoolConj v es
  | .Or es => occursBoolConj v es
  | .Xor a b => occursBoolB v a || occursBoolB v b
  | .Iff a b => occursBoolB v a || occursBoolB v b
  | .Imp a b => occursBoolB v a || occursBoolB v b
  | .Cmp _ a b => occursBoolI v a || occursBoolI v b
  | .Ite c t e => occursBoolB v c || occursBoolB v t || occursBoolB v e

/-- Does Boolean variable `v` occur in any expression of the list? -/
def occursBoolConj (v : Nat) : List BoolExpr → Bool
  | [] => false
  | e :: rest => occursBoolB v e || occursBoolConj v rest

/-- Does Boolean variable `v` occur in the integer expression? -/
def occursBoolI (v : Nat) : IntExpr → Bool
  | .Const _ => false
  | .Var _ => false
  | .Neg e => occursBoolI v e
  | .Add a b => occursBoolI v a || occursBoolI v b
  | .Ite c t e => occursBoolB v c || occursBoolI v t || occursBoolI v e
end

mutual
/-- Does integer variable `v` occur in the Boolean expression? -/
def occursIntB (v : Nat) : BoolExpr → Bool
  | .Const _ => false
  | .Var _ => false
  | .Not e => occursIntB v e
  | .And es => occursIntConj v es
  | .Or es => occursIntConj v es
  | .Xor a b => occursIntB v a || occursIntB v b
  | .Iff a b => occursIntB v a || occursIntB v b
  | .Imp a b => occursIntB v a || occursIntB v b
  | .Cmp _ a b => occursIntI v a || occursIntI v b
  | .Ite c t e => occursIntB v c || occursIntB v t || occursIntB v e

/-- Does integer variable `v` occur in any expression of the list? -/
def occursIntConj (v : Nat) : List BoolExpr → Bool
  | [] => false
  | e :: rest => occursIntB v e || occursIntConj v rest

/-- Does integer variable `v` occur in the integer expression? -/
def occursIntI (v : Nat) : IntExpr → Bool
  | .Const _ => false
  | .Var w => w == v
  | .Neg e => occursIntI v e
  | .Add a b => occursIntI v a || occursIntI v b
  | .Ite c t e => occursIntB v c || occursIntI v t || occursIntI v e
end

/-- Occurrence of a Boolean variable in a statement. -/
def occursBoolStmt (v : Nat) : Stmt → Bool
  | .Expr e => occursBoolB v e
  | .AllDifferent es => es.any (occursBoolI v)

/-- Occurrence of an integer variable in a statement. -/
def occursIntStmt (v : Nat) : Stmt → Bool
  | .Expr e => occursIntB v e
  | .AllDifferent es => es.any (occursIntI v)

/-- A Boolean variable is used iff it occurs in some statement (spec
sections 3 and 4.3: the `NormalizeMap` entry exists exactly for used
variables). -/
def usedBool (c : CSP) (v : Nat) : Bool :=
  c.stmts.any (occursBoolStmt v)

/-- An integer variable is used iff it occurs in some statement. -/
def usedInt (c : CSP) (v : Nat) : Bool :=
  c.stmts.any (occursIntStmt v)

/-! ## The finite assignment space

`IntegrationTester::check` compares `enumerate_valid_assignments` with a
brute-force walk over the product of all variable domains
(`util::product_multi` / `util::product_binary`).  We build the same
product space. -/

/-- Modelled from the spec: `util::product_multi` — all tuples picking
one element from each list. -/
def product_multi {α : Type} : List (List α) → List (List α)
  | [] => [[]]
  | l :: rest => l.flatMap (fun x => (product_multi rest).map (fun t => x :: t))

/-- All Boolean value tuples for `n` variables. -/
def boolTuples (n : Nat) : List (List Bool) :=
  product_multi (List.replicate n [false, true])

/-- All integer value tuples for the given domains. -/
def intTuples (ds : List Domain) : List (List Int) :=
  product_multi (ds.map Domain.enumerate)

/-- Pair each element of a list with its index, starting at `start`. -/
def idxPairs {β : Type} (start : Nat) : List β → List (Nat × β)
  | [] => []
  | x :: xs => (start, x) :: idxPairs (start + 1) xs

/-- The canonical assignment holding the values `bs` for Boolean
variables `0, 1, …` and `is` for integer variables `0, 1, …`. -/
def mkAsg (bs : List Bool) (is : List Int) : Assignment :=
  ⟨idxPairs 0 bs, idxPairs 0 is⟩

/-- The full assignment space of a CSP: every combination of values from
the variables' domains (the space walked by `IntegrationTester::check`). -/
def allAssignments (c : CSP) : List Assignment :=
  (boolTuples c.bool_var_count).flatMap (fun bs =>
    (intTuples c.int_var_domains).map (fun is => mkAsg bs is))

/-! ## The behavioral model of `solve`

`IntegratedSolver::solve` (transcribed from `integration.rs`) runs
`normalize`, `encode` and `SAT::solve` and wraps the result in a `Model`
view.  `normalizer.rs`, `encoder.rs` and `sat.rs` are not in the
snapshot, so the composite pipeline is modelled from the spec: sections
4.3 and 4.4 state that normalization and encoding preserve the
constraint semantics exactly (sound and complete), and section 6 states
that the SAT back-end returns a satisfying assignment iff one exists.
The back-end's freedom in choosing which model to return is an explicit
oracle parameter. -/

/-- The satisfying members of the assignment space. -/
def satAssignments (c : CSP) : List Assignment :=
  (allAssignments c).filter (fun A => satisfiesCSP A c)

/-- Modelled from the spec: the SAT back-end (`sat.rs`, not in the
snapshot).  It picks some satisfying assignment when one exists
(section 6: "returns SAT (with total assignment) or UNSAT"); which one
it picks is its own nondeterminism. -/
structure SatOracle where
  pick : List Assignment → Option Assignment
  pick_mem : ∀ l a, pick l = some a → a ∈ l
  pick_none : ∀ l, pick l = none → l = []

/-- The deterministic oracle that picks the first satisfying assignment. -/
def headOracle : SatOracle where
  pick l := l.head?
  pick_mem l a h := List.mem_of_mem_head? h
  pick_none l h := List.head?_eq_none_iff.mp h

/-- Observable `Model::get_bool` value of a Boolean variable: mapped
(used) variables report the SAT model value, unmapped variables fall
back to `false` (transcribed fallback of `Model::get_bool`, with the
map-absence criterion modelled from spec section 4.3: a variable is
mapped iff it occurs in a statement). -/
def modelBool (c : CSP) (A : Assignment) (v : Nat) : Bool :=
  if usedBool c v then A.boolAt v else false

/-- Observable `Model::get_int` value of an integer variable: mapped
variables report the SAT model value, unmapped ones fall back to the
domain's lower bound (transcribed fallback of `Model::get_int`). -/
def modelInt (c : CSP) (A : Assignment) (v : Nat) : Int :=
  if usedInt c v then A.intAt v else (c.int_domain v).lower_bound

/-- The full observable content of a `Model`: the value of every
allocated variable. -/
def readout (c : CSP) (A : Assignment) : Assignment :=
  mkAsg ((List.range c.bool_var_count).map (modelBool c A))
        ((List.range c.int_var_domains.length).map (modelInt c A))

/-- Modelled from the spec: `IntegratedSolver::solve` — normalize,
encode, ask the SAT back-end, and expose the resulting model (or `None`
on UNSAT).  The returned assignment is the observable content of the
returned `Model` view. -/
def solve (o : SatOracle) (c : CSP) : Option Assignment :=
  (o.pick (satAssignments c)).map (readout c)

/-! ## Enumeration of all valid assignments (transcribed from
`integration.rs`, `IntegratedSolver::enumerate_valid_assignments`) -/

/-- Transcribed from `integration.rs` (lines 75–93): after a model is
found, build the refutation expression — for each allocated Boolean
variable the literal negating its model value (`!x` if the value is
`true`, `x` if it is `false`), and for each allocated integer variable
the disequality `y ≠ v` with its model value — all joined by
`BoolExpr::Or`. -/
def refutation_expr (bool_vars int_vars : List Nat) (m : Assignment) : BoolExpr :=
  BoolExpr.Or
    ((bool_vars.map (fun v =>
        if m.boolAt v then BoolExpr.Not (BoolExpr.Var v) else BoolExpr.Var v)) ++
      int_vars.map (fun v => BoolExpr.Cmp CmpOp.Ne (IntExpr.Var v) (IntExpr.Const (m.intAt v))))

/-- Transcribed from `integration.rs` (lines 76–92): read the model value
of every allocated variable into a fresh `Assignment` via `set_bool` /
`set_int`. -/
def recordAssignment (bool_vars int_vars : List Nat) (m : Assignment) : Assignment :=
  int_vars.foldl (fun a v => a.set_int v (m.intAt v))
    (bool_vars.foldl (fun a v => a.set_bool v (m.boolAt v)) Assignment.new)

/-- Transcribed from `integration.rs` (lines 59–102): the enumeration
loop.  The Rust `loop` is modelled with an explicit fuel budget; the
enumeration theorems show a budget one larger than the assignment space
always suffices (each iteration removes one satisfying assignment). -/
def enumerateLoop (o : SatOracle) (bool_vars int_vars : List Nat) :
    Nat → CSP → List Assignment
  | 0, _ => []
  | fuel + 1, c =>
    match solve o c with
    | none => []
    | some m =>
        recordAssignment bool_vars int_vars m ::
          enumerateLoop o bool_vars int_vars fuel
            (c.add_expr (refutation_expr bool_vars int_vars m))

/-- Transcribed from `integration.rs`: `enumerate_valid_assignments`
collects the handles of every allocated variable, then loops: solve,
record the found assignment, append the refutation expression; on UNSAT
return the accumulated list. -/
def enumerate_valid_assignments (o : SatOracle) (c : CSP) : List Assignment :=
  enumerateLoop o (List.range c.bool_var_count) (List.range c.int_var_domains.length)
    ((allAssignments c).length + 1) c

/-! ## The `Model` view (transcribed from `integration.rs`, lines 105–127)

`Model::get_bool` / `Model::get_int` consult the `NormalizeMap` and then
the `EncodeMap`; the maps themselves live in `normalizer.rs` /
`encoder.rs`, which are not in the snapshot, so their lookup structure
is modelled from the spec (sections 3, 4.3, 4.4). -/

/-- A SAT literal: a (variable index, polarity) pair (spec section 3). -/
structure Lit where
  var : Nat
  negated : Bool
deriving DecidableEq

/-- Transcription of `Lit::is_negated`. -/
def Lit.is_negated (l : Lit) : Bool := l.negated

/-- Modelled from the spec: a total assignment over all SAT variables
allocated so far (`SATModel` in `sat.rs`, not in the snapshot). -/
structure SATModel where
  assignment : Nat → Bool

/-- Modelled from the spec (section 3): `NormalizeMap` holds, for each
CSP Boolean variable, the norm Boolean (or absence, meaning unused), and
for each CSP integer variable the norm integer variable (or absence). -/
structure NormalizeMap where
  bool_map : List (Nat × Nat)
  int_map : List (Nat × Nat)

/-- Transcription of `NormalizeMap::get_bool_var`. -/
def NormalizeMap.get_bool_var (nm : NormalizeMap) (v : Nat) : Option Nat :=
  alookup nm.bool_map v

/-- Transcription of `NormalizeMap::get_int_var`. -/
def NormalizeMap.get_int_var (nm : NormalizeMap) (v : Nat) : Option Nat :=
  alookup nm.int_map v

/-- Modelled from the spec (section 4.4): the order encoding of a norm
integer variable — its materialized domain `d₀ < … < dₙ₋₁` and the
`n − 1` SAT literals `pᵢ` meaning "value ≥ dᵢ₊₁". -/
structure IntEncoding where
  domain : List Int
  lits : List Lit

/-- Modelled from the spec (section 3): `EncodeMap` holds, for each norm
Boolean, the SAT literal (possibly absent), and for each norm integer
variable its numeric encoding. -/
structure EncodeMap where
  bool_map : List (Nat × Lit)
  int_map : List (Nat × IntEncoding)

/-- Transcription of `EncodeMap::get_bool_var`. -/
def EncodeMap.get_bool_var (em : EncodeMap) (nv : Nat) : Option Lit :=
  alookup em.bool_map nv

/-- Modelled from the spec (section 4.4): `EncodeMap::get_int_value` —
"the assignment reads the index as the count of p-literals true; the
value is d_{index}". -/
def EncodeMap.get_int_value (em : EncodeMap) (model : SATModel) (nv : Nat) : Option Int :=
  (alookup em.int_map nv).map (fun enc =>
    enc.domain.getD
      (enc.lits.countP (fun (l : Lit) => Bool.xor (model.assignment l.var) l.is_negated)) 0)

/-- Transcribed from `integration.rs` (lines 105–110): the read-only
model view returned by `solve`. -/
structure Model where
  csp : CSP
  normalize_map : NormalizeMap
  encode_map : EncodeMap
  model : SATModel

/-- Transcribed from `integration.rs` (lines 113–119): look up the
variable in the `NormalizeMap`, then the result in the `EncodeMap`, read
the SAT assignment through the literal's polarity, and fall back to
`false` when either map entry is absent. -/
def Model.get_bool (m : Model) (var : Nat) : Bool :=
  (((m.normalize_map.get_bool_var var).bind
      (fun norm_var => m.encode_map.get_bool_var norm_var)).map
    (fun (sat_lit : Lit) =>
      Bool.xor (m.model.assignment sat_lit.var) sat_lit.is_negated)).getD false

/-- Transcribed from `integration.rs` (lines 121–126): the same chain
for integer variables, falling back to the lower bound of the variable's
original domain. -/
def Model.get_int (m : Model) (var : Nat) : Int :=
  ((m.normalize_map.get_int_var var).bind
      (fun norm_var => m.encode_map.get_int_value m.model norm_var)).getD
    (m.csp.int_domain var).lower_bound

/-- Does the encoding entry for norm variable `nv` (if any) agree with
the original domain of CSP variable `v` — same materialized domain,
`n − 1` order-encoding literals for `n` domain values? -/
def encOkB (m : Model) (v nv : Nat) : Bool :=
  match alookup m.encode_map.int_map nv with
  | none => true
  | some enc =>
      decide (enc.domain = (m.csp.int_domain v).enumerate) &&
        (enc.lits.length + 1 == enc.domain.length)

/-- Modelled from the spec: the invariants linking the maps to the CSP
(sections 4.3 and 4.4): the normalizer gives a mapped integer variable a
norm variable "with the same sorted distinct D", and the encoder gives a
norm variable with an `n`-value domain exactly `n − 1` order-encoding
literals. -/
def ModelWF (m : Model) : Prop :=
  ∀ p ∈ m.normalize_map.int_map, encOkB m p.1 p.2 = true

instance (m : Model) : Decidable (ModelWF m) := by
  unfold ModelWF
  infer_instance

/-! ## The incremental pipeline state (for determinism and monotonicity)

`IntegratedSolver` owns the CSP, the two maps, the `NormCSP` and the SAT
instance, and `solve` runs `normalize` then `encode` over any
un-consumed prefix before invoking SAT (`integration.rs`, lines 7–55).
`normalizer.rs` and `encoder.rs` are not in the snapshot; their map- and
CNF-building behavior is modelled from the spec (sections 4.3 and 4.4):
statements are processed in insertion order, each newly encountered
variable receives the next free norm/SAT index, writes to the maps are
append-only, and clause ordering is a deterministic function of
insertion order.  Tseitin auxiliaries and per-constraint clauses beyond
the order-encoding axioms only advance the same counters and append
further clauses, so they are abstracted here. -/

mutual
/-- Boolean variables of a Boolean expression, in occurrence order. -/
def boolVarsB : BoolExpr → List Nat
  | .Const _ => []
  | .Var v => [v]
  | .Not e => boolVarsB e
  | .And es => boolVarsList es
  | .Or es => boolVarsList es
  | .Xor a b => boolVarsB a ++ boolVarsB b
  | .Iff a b => boolVarsB a ++ boolVarsB b
  | .Imp a b => boolVarsB a ++ boolVarsB b
  | .Cmp _ a b => boolVarsI a ++ boolVarsI b
  | .Ite c t e => boolVarsB c ++ boolVarsB t ++ boolVarsB e

/-- Boolean variables of a list of Boolean expressions. -/
def boolVarsList : List BoolExpr → List Nat
  | [] => []
  | e :: rest => boolVarsB e ++ boolVarsList rest

/-- Boolean variables of an integer expression. -/
def boolVarsI : IntExpr → List Nat
  | .Const _ => []
  | .Var _ => []
  | .Neg e => boolVarsI e
  | .Add a b => boolVarsI a ++ boolVarsI b
  | .Ite c t e => boolVarsB c ++ boolVarsI t ++ boolVarsI e
end

mutual
/-- Integer variables of a Boolean expression, in occurrence order. -/
def intVarsB : BoolExpr → List Nat
  | .Const _ => []
  | .Var _ => []
  | .Not e => intVarsB e
  | .And es => intVarsList es
  | .Or es => intVarsList es
  | .Xor a b => intVarsB a ++ intVarsB b
  | .Iff a b => intVarsB a ++ intVarsB b
  | .Imp a b => intVarsB a ++ intVarsB b
  | .Cmp _ a b => intVarsI a ++ intVarsI b
  | .Ite c t e => intVarsB c ++ intVarsB t ++ intVarsB e

/-- Integer variables of a list of Boolean expressions. -/
def intVarsList : List BoolExpr → List Nat
  | [] => []
  | e :: rest => intVarsB e ++ intVarsList rest

/-- Integer variables of an integer expression. -/
def intVarsI : IntExpr → List Nat
  | .Const _ => []
  | .Var v => [v]
  | .Neg e => intVarsI e
  | .Add a b => intVarsI a ++ intVarsI b
  | .Ite c t e => intVarsB c ++ intVarsI t ++ intVarsI e
end

/-- Boolean variables of a statement. -/
def boolVarsStmt : Stmt → List Nat
  | .Expr e => boolVarsB e
  | .AllDifferent es => es.flatMap boolVarsI

/-- Integer variables of a statement. -/
def intVarsStmt : Stmt → List Nat
  | .Expr e => intVarsB e
  | .AllDifferent es => es.flatMap intVarsI

/-- Modelled from the spec: the state owned by an `IntegratedSolver`
(`integration.rs` lines 7–13) with the pipeline cursors of sections 4.2
and 4.3 and the CNF data of section 4.4 made explicit. -/
structure SolverState where
  csp : CSP
  stmt_cursor : Nat
  nm : NormalizeMap
  norm_bool_count : Nat
  norm_int_count : Nat
  norm_int_domains : List (List Int)
  em : EncodeMap
  enc_bool_cursor : Nat
  enc_int_cursor : Nat
  sat_var_count : Nat
  clauses : List (List Lit)

/-- The fresh solver state (`IntegratedSolver::new`). -/
def SolverState.init : SolverState :=
  ⟨CSP.new, 0, ⟨[], []⟩, 0, 0, [], ⟨[], []⟩, 0, 0, 0, []⟩

/-- Modelled from the spec (section 4.3): give a newly encountered
Boolean variable the next free norm index; variables already mapped are
left untouched (writes are append-only). -/
def registerBoolVar (s : SolverState) (v : Nat) : SolverState :=
  match alookup s.nm.bool_map v with
  | some _ => s
  | none =>
      { s with
        nm := ⟨s.nm.bool_map ++ [(v, s.norm_bool_count)], s.nm.int_map⟩,
        norm_bool_count := s.norm_bool_count + 1 }

/-- Modelled from the spec (section 4.3): a newly encountered integer
variable yields one norm integer variable "with the same sorted distinct
D". -/
def registerIntVar (s : SolverState) (v : Nat) : SolverState :=
  match alookup s.nm.int_map v with
  | some _ => s
  | none =>
      { s with
        nm := ⟨s.nm.bool_map, s.nm.int_map ++ [(v, s.norm_int_count)]⟩,
        norm_int_count := s.norm_int_count + 1,
        norm_int_domains := s.norm_int_domains ++ [(s.csp.int_domain v).enumerate] }

/-- Modelled from the spec (section 4.3): lower one statement — register
every occurring variable in occurrence order. -/
def normalizeStmt (s : SolverState) (st : Stmt) : SolverState :=
  (intVarsStmt st).foldl registerIntVar ((boolVarsStmt st).foldl registerBoolVar s)

/-- Modelled from the spec (section 4.3): `normalize` advances the
statement cursor over the un-consumed suffix. -/
def normalize (s : SolverState) : SolverState :=
  { (s.csp.stmts.drop s.stmt_cursor).foldl normalizeStmt s with
    stmt_cursor := s.csp.stmts.length }

/-- Modelled from the spec (section 4.4): a norm Boolean is mapped to a
fresh positive SAT literal on first sight. -/
def encodeBoolVar (s : SolverState) (nv : Nat) : SolverState :=
  { s with
    em := ⟨s.em.bool_map ++ [(nv, ⟨s.sat_var_count, false⟩)], s.em.int_map⟩,
    sat_var_count := s.sat_var_count + 1 }

/-- The monotone order-encoding axioms `pᵢ → pᵢ₋₁` of section 4.4, as
binary clauses. -/
def monotoneAxioms : List Lit → List (List Lit)
  | [] => []
  | [_] => []
  | p :: q :: rest => [⟨q.var, true⟩, ⟨p.var, false⟩] :: monotoneAxioms (q :: rest)

/-- Modelled from the spec (section 4.4): order-encode a norm integer
variable — allocate `n − 1` fresh SAT variables and emit the monotone
axioms. -/
def encodeIntVar (s : SolverState) (nv : Nat) : SolverState :=
  let D := s.norm_int_domains.getD nv []
  let ps := (List.range (D.length - 1)).map (fun i => Lit.mk (s.sat_var_count + i) false)
  { s with
    em := ⟨s.em.bool_map, s.em.int_map ++ [(nv, ⟨D, ps⟩)]⟩,
    sat_var_count := s.sat_var_count + (D.length - 1),
    clauses := s.clauses ++ monotoneAxioms ps }

/-- Modelled from the spec (section 4.4): `encode` walks the new norm
variables in order and advances the encoding cursors. -/
def encode (s : SolverState) : SolverState :=
  let s1 := (List.range' s.enc_bool_cursor (s.norm_bool_count - s.enc_bool_cursor)).foldl
    encodeBoolVar s
  let s2 := (List.range' s.enc_int_cursor (s.norm_int_count - s.enc_int_cursor)).foldl
    encodeIntVar s1
  { s2 with enc_bool_cursor := s2.norm_bool_count, enc_int_cursor := s2.norm_int_count }

/-- The operations a caller can feed to an `IntegratedSolver`. -/
inductive SolverOp : Type where
  | newBoolVar : SolverOp
  | newIntVar : Domain → SolverOp
  | addConstraint : Stmt → SolverOp
  | solveOp : SolverOp

/-- Modelled from the spec: apply one caller operation.  `solveOp` runs
`normalize` then `encode` and hands the compiled clause set to the SAT
back-end `sat`, whose answer is returned to the caller but never written
back into the compiled state (section 5: the search nondeterminism stays
inside the back-end). -/
def applyOp (sat : List (List Lit) → Option (Nat → Bool)) (s : SolverState) :
    SolverOp → SolverState × Option (Nat → Bool)
  | .newBoolVar => ({ s with csp := (s.csp.new_bool_var).1 }, none)
  | .newIntVar d => ({ s with csp := (s.csp.new_int_var d).1 }, none)
  | .addConstraint st => ({ s with csp := s.csp.add_constraint st }, none)
  | .solveOp =>
      let s2 := encode (normalize s)
      (s2, sat s2.clauses)

/-- Run a sequence of caller operations. -/
def runOps (sat : List (List Lit) → Option (Nat → Bool)) (s : SolverState) :
    List SolverOp → SolverState
  | [] => s
  | op :: rest => runOps sat ((applyOp sat s op).1) rest

/-- All map entries of the first state are still present (unchanged) in
the second. -/
def MapsPreserved (s s2 : SolverState) : Prop :=
  (∀ v nv, alookup s.nm.bool_map v = some nv → alookup s2.nm.bool_map v = some nv) ∧
  (∀ v nv, alookup s.nm.int_map v = some nv → alookup s2.nm.int_map v = some nv) ∧
  (∀ nv l, alookup s.em.bool_map nv = some l → alookup s2.em.bool_map nv = some l) ∧
  (∀ nv e, alookup s.em.int_map nv = some e → alookup s2.em.int_map nv = some e)

/-! ## Checked construction (for claim C9)

Modelled from the spec (section 7): "Construction errors (programmer
bugs): empty domain, unknown variable handle, arity mismatch.  Reported
immediately at the offending call; leave the integrator in its prior
state."  The validating code lives in `csp.rs`, which is not in the
snapshot; each checked operation returns the result together with the
(possibly unchanged) state. -/

/-- Are all variable handles of a statement within the allocated range? -/
def stmtVarsOk (c : CSP) (st : Stmt) : Bool :=
  (boolVarsStmt st).all (fun v => v < c.bool_var_count) &&
    (intVarsStmt st).all (fun v => v < c.int_var_domains.length)

/-- Modelled from the spec (section 7): `new_int_var` with an empty
domain is a construction error reported at the call; the state is
returned unchanged. -/
def new_int_var_checked (s : SolverState) (d : Domain) :
    Except String Nat × SolverState :=
  if d.enumerate.isEmpty then (Except.error "empty domain", s)
  else (Except.ok s.csp.int_var_domains.length, { s with csp := (s.csp.new_int_var d).1 })

/-- Modelled from the spec (section 7): `add_constraint` referencing an
unknown variable handle is a construction error reported at the call;
the state is returned unchanged. -/
def add_constraint_checked (s : SolverState) (st : Stmt) :
    Except String Unit × SolverState :=
  if stmtVarsOk s.csp st then (Except.ok (), { s with csp := s.csp.add_constraint st })
  else (Except.error "unknown variable handle", s)

/-! ## Concrete instances used by the witnesses and the counterexample -/

/-- One Boolean variable asserted true. -/
def cexCSP1 : CSP := ⟨1, [], [Stmt.Expr (BoolExpr.Var 0)]⟩

/-- One Boolean variable occurring in no statement. -/
def cexCSP2 : CSP := ⟨1, [], []⟩

/-- A contradictory pair of unit constraints. -/
def cexCSP3 : CSP := ⟨1, [], [Stmt.Expr (BoolExpr.Var 0), Stmt.Expr (BoolExpr.Not (BoolExpr.Var 0))]⟩

/-- A model whose maps are all empty (every lookup is absent). -/
def cexModel1 : Model := ⟨⟨0, [Domain.range 2 5], []⟩, ⟨[], []⟩, ⟨[], []⟩, ⟨fun _ => false⟩⟩

/-- A model with one mapped integer variable, order-encoded over domain
`{1, 2, 3}` with the SAT assignment making exactly the first
order-encoding literal true (so the decoded value is `2`). -/
def cexModel2 : Model :=
  ⟨⟨0, [Domain.range 1 3], []⟩, ⟨[], [(0, 0)]⟩,
    ⟨[], [(0, ⟨[1, 2, 3], [⟨0, false⟩, ⟨1, false⟩]⟩)]⟩, ⟨fun v => v == 0⟩⟩

/-- A SAT back-end stub that always reports UNSAT. -/
def satNone : List (List Lit) → Option (Nat → Bool) := fun _ => none

/-- A SAT back-end stub that always reports the all-false model. -/
def satAllFalse : List (List Lit) → Option (Nat → Bool) := fun _ => some (fun _ => false)

/-! ## Theorems -/

theorem mem_rangeList {lo hi x : Int} : x ∈ rangeList lo hi ↔ lo ≤ x ∧ x ≤ hi := by
  unfold rangeList
  simp only [List.mem_map, List.mem_range]
  constructor
  · rintro ⟨i, hi', rfl⟩
    omega
  · rintro ⟨h1, h2⟩
    exact ⟨(x - lo).toNat, by omega, by omega⟩

theorem rangeList_nodup (lo hi : Int) : (rangeList lo hi).Nodup := by
  unfold rangeList
  refine (List.nodup_range _).map ?_
  intro a b h
  dsimp only at h
  omega

theorem Domain.enumerate_nodup {d : Domain} (h : d.WF) : d.enumerate.Nodup := by
  obtain ⟨-, -, hsort⟩ := h
  unfold Domain.enumerate
  rw [List.nodup_flatMap]
  constructor
  · intro r _; exact rangeList_nodup _ _
  · -- ranges are sorted and disjoint, so their materializations are disjoint
    refine hsort.imp ?_
    intro r s hlt
    intro x hx1 hx2
    rw [mem_rangeList] at hx1 hx2
    omega

theorem Domain.lower_bound_mem {d : Domain} (h : d.WF) :
    d.lower_bound ∈ d.enumerate := by
  obtain ⟨hne, hr, -⟩ := h
  match hd : d.ranges with
  | [] => exact absurd hd hne
  | r :: rest =>
    have hr1 : r.1 ≤ r.2 := hr r (by rw [hd]; exact List.mem_cons_self r rest)
    unfold Domain.enumerate Domain.lower_bound
    rw [hd]
    simp only [List.flatMap_cons, List.mem_append]
    exact Or.inl (mem_rangeList.mpr ⟨le_refl _, hr1⟩)

theorem Domain.enumerate_ne_nil {d : Domain} (h : d.WF) : d.enumerate ≠ [] :=
  List.ne_nil_of_mem (Domain.lower_bound_mem h)

theorem alookup_ainsert_self {β : Type} (l : List (Nat × β)) (k : Nat) (v : β) :
    alookup (ainsert l k v) k = some v := by
  induction l with
  | nil => simp [ainsert, alookup]
  | cons p rest ih =>
    obtain ⟨k', v'⟩ := p
    by_cases h : k' = k
    · simp [ainsert, h, alookup]
    · simp [ainsert, h, alookup, ih]

theorem alookup_ainsert_ne {β : Type} (l : List (Nat × β)) (k k' : Nat) (v : β)
    (h : k ≠ k') : alookup (ainsert l k v) k' = alookup l k' := by
  induction l with
  | nil => simp [ainsert, alookup, h]
  | cons p rest ih =>
    obtain ⟨k0, v0⟩ := p
    by_cases h0 : k0 = k
    · subst h0
      simp [ainsert, alookup, h]
    · simp only [ainsert, if_neg h0]
      by_cases h1 : k0 = k'
      · simp [alookup, h1]
      · simp [alookup, h1, ih]

/-- If the key is absent, insertion appends the new binding. -/
theorem ainsert_of_absent {β : Type} (l : List (Nat × β)) (k : Nat) (v : β)
    (h : alookup l k = none) : ainsert l k v = l ++ [(k, v)] := by
  induction l with
  | nil => simp [ainsert]
  | cons p rest ih =>
    obtain ⟨k', v'⟩ := p
    by_cases h0 : k' = k
    · simp [alookup, h0] at h
    · simp only [alookup, if_neg h0] at h
      simp [ainsert, h0, ih h]

/-! ## Evaluation depends only on occurring variables -/

mutual
theorem eval_bool_congr (A B : Assignment) (e : BoolExpr)
    (hb : ∀ v, occursBoolB v e = true → A.boolAt v = B.boolAt v)
    (hi : ∀ v, occursIntB v e = true → A.intAt v = B.intAt v) :
    eval_bool_expr A e = eval_bool_expr B e :=
  match e with
  | .Const _ => rfl
  | .Var w => hb w (by simp [occursBoolB])
  | .Not e => by
      simp only [eval_bool_expr]
      rw [eval_bool_congr A B e (fun v hv => hb v (by simpa [occursBoolB] using hv))
        (fun v hv => hi v (by simpa [occursIntB] using hv))]
  | .And es => by
      simp only [eval_bool_expr]
      exact evalConj_congr A B es
        (fun v hv => hb v (by simpa [occursBoolB] using hv))
        (fun v hv => hi v (by simpa [occursIntB] using hv))
  | .Or es => by
      simp only [eval_bool_expr]
      exact evalDisj_congr A B es
        (fun v hv => hb v (by simpa [occursBoolB] using hv))
        (fun v hv => hi v (by simpa [occursIntB] using hv))
  | .Xor a b => by
      simp only [eval_bool_expr]
      rw [eval_bool_congr A B a (fun v hv => hb v (by simp [occursBoolB, hv]))
            (fun v hv => hi v (by simp [occursIntB, hv])),
          eval_bool_congr A B b (fun v hv => hb v (by simp [occursBoolB, hv]))
            (fun v hv => hi v (by simp [occursIntB, hv]))]
  | .Iff a b => by
      simp only [eval_bool_expr]
      rw [eval_bool_congr A B a (fun v hv => hb v (by simp [occursBoolB, hv]))
            (fun v hv => hi v (by simp [occursIntB, hv])),
          eval_bool_congr A B b (fun v hv => hb v (by simp [occursBoolB, hv]))
            (fun v hv => hi v (by simp [occursIntB, hv]))]
  | .Imp a b => by
      simp only [eval_bool_expr]
      rw [eval_bool_congr A B a (fun v hv => hb v (by simp [occursBoolB, hv]))
            (fun v hv => hi v (by simp [occursIntB, hv])),
          eval_bool_congr A B b (fun v hv => hb v (by simp [occursBoolB, hv]))
            (fun v hv => hi v (by simp [occursIntB, hv]))]
  | .Cmp op a b => by
      simp only [eval_bool_expr]
      rw [eval_int_congr A B a (fun v hv => hb v (by simp [occursBoolB, hv]))
            (fun v hv => hi v (by simp [occursIntB, hv])),
          eval_int_congr A B b (fun v hv => hb v (by simp [occursBoolB, hv]))
            (fun v hv => hi v (by simp [occursIntB, hv]))]
  | .Ite c t e => by
      simp only [eval_bool_expr]
      rw [eval_bool_congr A B c (fun v hv => hb v (by simp [occursBoolB, hv]))
            (fun v hv => hi v (by simp [occursIntB, hv])),
          eval_bool_congr A B t (fun v hv => hb v (by simp [occursBoolB, hv]))
            (fun v hv => hi v (by simp [occursIntB, hv])),
          eval_bool_congr A B e (fun v hv => hb v (by simp [occursBoolB, hv]))
            (fun v hv => hi v (by simp [occursIntB, hv]))]

theorem evalConj_congr (A B : Assignment) (es : List BoolExpr)
    (hb : ∀ v, occursBoolConj v es = true → A.boolAt v = B.boolAt v)
    (hi : ∀ v, occursIntConj v es = true → A.intAt v = B.intAt v) :
    evalConj A es = evalConj B es :=
  match es with
  | [] => rfl
  | e :: rest => by
      simp only [evalConj]
      rw [eval_bool_congr A B e (fun v hv => hb v (by simp [occursBoolConj, hv]))
            (fun v hv => hi v (by simp [occursIntConj, hv])),
          evalConj_congr A B rest (fun v hv => hb v (by simp [occursBoolConj, hv]))
            (fun v hv => hi v (by simp [occursIntConj, hv]))]

theorem evalDisj_congr (A B : Assignment) (es : List BoolExpr)
    (hb : ∀ v, occursBoolConj v es = true → A.boolAt v = B.boolAt v)
    (hi : ∀ v, occursIntConj v es = true → A.intAt v = B.intAt v) :
    evalDisj A es = evalDisj B es :=
  match es with
  | [] => rfl
  | e :: rest => by
      simp only [evalDisj]
      rw [eval_bool_congr A B e (fun v hv => hb v (by simp [occursBoolConj, hv]))
            (fun v hv => hi v (by simp [occursIntConj, hv])),
          evalDisj_congr A B rest (fun v hv => hb v (by simp [occursBoolConj, hv]))
            (fun v hv => hi v (by simp [occursIntConj, hv]))]

theorem eval_int_congr (A B : Assignment) (e : IntExpr)
    (hb : ∀ v, occursBoolI v e = true → A.boolAt v = B.boolAt v)
    (hi : ∀ v, occursIntI v e = true → A.intAt v = B.intAt v) :
    eval_int_expr A e = eval_int_expr B e :=
  match e with
  | .Const _ => rfl
  | .Var w => hi w (by simp [occursIntI])
  | .Neg e => by
      simp only [eval_int_expr]
      rw [eval_int_congr A B e (fun v hv => hb v (by simpa [occursBoolI] using hv))
        (fun v hv => hi v (by simpa [occursIntI] using hv))]
  | .Add a b => by
      simp only [eval_int_expr]
      rw [eval_int_congr A B a (fun v hv => hb v (by simp [occursBoolI, hv]))
            (fun v hv => hi v (by simp [occursIntI, hv])),
          eval_int_congr A B b (fun v hv => hb v (by simp [occursBoolI, hv]))
            (fun v hv => hi v (by simp [occursIntI, hv]))]
  | .Ite c t e => by
      simp only [eval_int_expr]
      rw [eval_bool_congr A B c (fun v hv => hb v (by simp [occursBoolI, hv]))
            (fun v hv => hi v (by simp [occursIntI, hv])),
          eval_int_congr A B t (fun v hv => hb v (by simp [occursBoolI, hv]))
            (fun v hv => hi v (by simp [occursIntI, hv])),
          eval_int_congr A B e (fun v hv => hb v (by simp [occursBoolI, hv]))
            (fun v hv => hi v (by simp [occursIntI, hv]))]
end
/-- Statement satisfaction depends only on the variables occurring in
the statement. -/
theorem satisfiesStmt_congr (A B : Assignment) (s : Stmt)
    (hb : ∀ v, occursBoolStmt v s = true → A.boolAt v = B.boolAt v)
    (hi : ∀ v, occursIntStmt v s = true → A.intAt v = B.intAt v) :
    satisfiesStmt A s = satisfiesStmt B s := by
  match s with
  | .Expr e =>
    simp only [satisfiesStmt]
    exact eval_bool_congr A B e (fun v hv => hb v (by simpa [occursBoolStmt] using hv))
      (fun v hv => hi v (by simpa [occursIntStmt] using hv))
  | .AllDifferent es =>
    simp only [satisfiesStmt]
    congr 1
    apply List.map_congr_left
    intro e he
    exact eval_int_congr A B e
      (fun v hv => hb v (by simp only [occursBoolStmt]; exact List.any_eq_true.mpr ⟨e, he, hv⟩))
      (fun v hv => hi v (by simp only [occursIntStmt]; exact List.any_eq_true.mpr ⟨e, he, hv⟩))

/-- `List.all` respects pointwise-equal predicates. -/
theorem list_all_congr {α : Type} (l : List α) (f g : α → Bool)
    (h : ∀ x ∈ l, f x = g x) : l.all f = l.all g := by
  induction l with
  | nil => rfl
  | cons x xs ih =>
    simp only [List.all_cons, h x (by simp)]
    rw [ih (fun y hy => h y (by simp [hy]))]

/-- CSP satisfaction depends only on the used variables. -/
theorem satisfiesCSP_congr (A B : Assignment) (c : CSP)
    (hb : ∀ v, usedBool c v = true → A.boolAt v = B.boolAt v)
    (hi : ∀ v, usedInt c v = true → A.intAt v = B.intAt v) :
    satisfiesCSP A c = satisfiesCSP B c := by
  unfold satisfiesCSP
  apply list_all_congr
  intro s hs
  apply satisfiesStmt_congr
  · intro v hv
    exact hb v (List.any_eq_true.mpr ⟨s, hs, hv⟩)
  · intro v hv
    exact hi v (List.any_eq_true.mpr ⟨s, hs, hv⟩)

theorem mem_product_multi {α : Type} {ls : List (List α)} {t : List α} :
    t ∈ product_multi ls ↔ List.Forall₂ (fun x l => x ∈ l) t ls := by
  induction ls generalizing t with
  | nil =>
    simp only [product_multi, List.mem_singleton]
    constructor
    · rintro rfl; exact List.Forall₂.nil
    · intro h; cases h; rfl
  | cons l rest ih =>
    simp only [product_multi, List.mem_flatMap, List.mem_map]
    constructor
    · rintro ⟨x, hx, t0, ht0, rfl⟩
      exact List.Forall₂.cons hx (ih.mp ht0)
    · intro h
      cases h with
      | cons hx ht => exact ⟨_, hx, _, ih.mpr ht, rfl⟩

theorem product_multi_nodup {α : Type} {ls : List (List α)}
    (h : ∀ l ∈ ls, l.Nodup) : (product_multi ls).Nodup := by
  induction ls with
  | nil => simp [product_multi]
  | cons l rest ih =>
    simp only [product_multi]
    rw [List.nodup_flatMap]
    constructor
    · intro x _
      refine List.Nodup.map ?_ (ih (fun m hm => h m (by simp [hm])))
      intro a b hab
      exact List.tail_eq_of_cons_eq hab
    · have hl : l.Nodup := h l (by simp)
      refine hl.pairwise_of_forall_ne ?_
      intro a ha b hb hab
      intro t hta htb
      simp only [List.mem_map] at hta htb
      obtain ⟨ta, -, rfl⟩ := hta
      obtain ⟨tb, -, htb'⟩ := htb
      exact hab (List.head_eq_of_cons_eq htb'.symm ▸ rfl)

theorem mem_boolTuples {n : Nat} {t : List Bool} :
    t ∈ boolTuples n ↔ t.length = n := by
  unfold boolTuples
  rw [mem_product_multi, List.forall₂_iff_get]
  simp only [List.length_replicate]
  constructor
  · rintro ⟨hl, -⟩; exact hl
  · intro hl
    refine ⟨hl, fun i h1 h2 => ?_⟩
    simp only [List.get_eq_getElem, List.getElem_replicate]
    rcases t[i] with _ | _ <;> simp

theorem mem_intTuples {ds : List Domain} {t : List Int} :
    t ∈ intTuples ds ↔ t.length = ds.length ∧
      ∀ i (h1 : i < t.length) (h2 : i < ds.length),
        t.get ⟨i, h1⟩ ∈ (ds.get ⟨i, h2⟩).enumerate := by
  unfold intTuples
  rw [mem_product_multi, List.forall₂_iff_get]
  simp only [List.length_map]
  constructor
  · rintro ⟨hl, hget⟩
    refine ⟨hl, fun i h1 h2 => ?_⟩
    have := hget i h1 (by simpa using h2)
    simp only [List.get_eq_getElem, List.getElem_map] at this ⊢
    exact this
  · rintro ⟨hl, hget⟩
    refine ⟨hl, fun i h1 h2 => ?_⟩
    simp only [List.get_eq_getElem, List.getElem_map]
    have := hget i h1 (by simpa using h2)
    simpa using this

theorem boolTuples_nodup (n : Nat) : (boolTuples n).Nodup := by
  apply product_multi_nodup
  intro l hl
  rw [List.eq_of_mem_replicate hl]
  simp

theorem intTuples_nodup {ds : List Domain} (h : ∀ d ∈ ds, d.WF) :
    (intTuples ds).Nodup := by
  apply product_multi_nodup
  intro l hl
  rw [List.mem_map] at hl
  obtain ⟨d, hd, rfl⟩ := hl
  exact Domain.enumerate_nodup (h d hd)

theorem alookup_idxPairs {β : Type} (start : Nat) (xs : List β) (v : Nat) :
    alookup (idxPairs start xs) v =
      if start ≤ v ∧ v < start + xs.length then xs[v - start]? else none := by
  induction xs generalizing start with
  | nil => simp [idxPairs, alookup]
  | cons x rest ih =>
    simp only [idxPairs, alookup, List.length_cons]
    by_cases h : start = v
    · subst h
      simp
    · rw [if_neg h, ih (start + 1)]
      by_cases h2 : start + 1 ≤ v ∧ v < start + 1 + rest.length
      · rw [if_pos h2, if_pos (by omega)]
        have hv : v - start = (v - (start + 1)) + 1 := by omega
        rw [hv, List.getElem?_cons_succ]
      · rw [if_neg h2, if_neg (by omega)]

theorem idxPairs_inj {β : Type} (start : Nat) (xs ys : List β)
    (h : idxPairs start xs = idxPairs start ys) : xs = ys := by
  induction xs generalizing start ys with
  | nil => cases ys with
    | nil => rfl
    | cons y ys => simp [idxPairs] at h
  | cons x rest ih =>
    cases ys with
    | nil => simp [idxPairs] at h
    | cons y ys =>
      simp only [idxPairs, List.cons.injEq, Prod.mk.injEq] at h
      obtain ⟨⟨-, rfl⟩, h2⟩ := h
      rw [ih (start + 1) ys h2]

theorem mkAsg_boolAt {bs : List Bool} {is : List Int} {v : Nat} (h : v < bs.length) :
    (mkAsg bs is).boolAt v = bs[v] := by
  unfold mkAsg Assignment.boolAt
  rw [alookup_idxPairs]
  rw [if_pos (by omega)]
  simp only [Nat.sub_zero]
  rw [List.getElem?_eq_getElem h]
  rfl

theorem mkAsg_intAt {bs : List Bool} {is : List Int} {v : Nat} (h : v < is.length) :
    (mkAsg bs is).intAt v = is[v] := by
  unfold mkAsg Assignment.intAt
  rw [alookup_idxPairs]
  rw [if_pos (by omega)]
  simp only [Nat.sub_zero]
  rw [List.getElem?_eq_getElem h]
  rfl

theorem mkAsg_inj {bs bs' : List Bool} {is is' : List Int}
    (h : mkAsg bs is = mkAsg bs' is') : bs = bs' ∧ is = is' := by
  unfold mkAsg at h
  injection h with h1 h2
  exact ⟨idxPairs_inj 0 _ _ h1, idxPairs_inj 0 _ _ h2⟩

theorem mem_allAssignments {c : CSP} {A : Assignment} :
    A ∈ allAssignments c ↔ ∃ bs is, bs ∈ boolTuples c.bool_var_count ∧
      is ∈ intTuples c.int_var_domains ∧ A = mkAsg bs is := by
  unfold allAssignments
  simp only [List.mem_flatMap, List.mem_map]
  constructor
  · rintro ⟨bs, hbs, is, his, rfl⟩
    exact ⟨bs, is, hbs, his, rfl⟩
  · rintro ⟨bs, is, hbs, his, rfl⟩
    exact ⟨bs, hbs, is, his, rfl⟩

theorem allAssignments_nodup {c : CSP} (h : ∀ d ∈ c.int_var_domains, d.WF) :
    (allAssignments c).Nodup := by
  unfold allAssignments
  rw [List.nodup_flatMap]
  constructor
  · intro bs _
    refine List.Nodup.map ?_ (intTuples_nodup h)
    intro a b hab
    exact (mkAsg_inj hab).2
  · refine (boolTuples_nodup c.bool_var_count).pairwise_of_forall_ne ?_
    intro a ha b hb hab
    intro t hta htb
    simp only [List.mem_map] at hta htb
    obtain ⟨ta, -, rfl⟩ := hta
    obtain ⟨tb, -, htb'⟩ := htb
    exact hab (mkAsg_inj htb'.symm).1

/-- Two members of the assignment space that agree on every allocated
variable are equal. -/
theorem allAssignments_ext {c : CSP} {A B : Assignment}
    (hA : A ∈ allAssignments c) (hB : B ∈ allAssignments c)
    (hb : ∀ v, v < c.bool_var_count → A.boolAt v = B.boolAt v)
    (hi : ∀ v, v < c.int_var_domains.length → A.intAt v = B.intAt v) :
    A = B := by
  rw [mem_allAssignments] at hA hB
  obtain ⟨bs, is, hbs, his, rfl⟩ := hA
  obtain ⟨bs', is', hbs', his', rfl⟩ := hB
  rw [mem_boolTuples] at hbs hbs'
  have hisl : is.length = c.int_var_domains.length := (mem_intTuples.mp his).1
  have hisl' : is'.length = c.int_var_domains.length := (mem_intTuples.mp his').1
  have hbseq : bs = bs' := by
    apply List.ext_getElem (by rw [hbs, hbs'])
    intro i h1 h2
    have := hb i (by omega)
    rwa [mkAsg_boolAt h1, mkAsg_boolAt h2] at this
  have hiseq : is = is' := by
    apply List.ext_getElem (by rw [hisl, hisl'])
    intro i h1 h2
    have := hi i (by omega)
    rwa [mkAsg_intAt h1, mkAsg_intAt h2] at this
  rw [hbseq, hiseq]

/-- A member of the assignment space takes integer values inside the
corresponding domains. -/
theorem allAssignments_int_mem {c : CSP} {A : Assignment}
    (hA : A ∈ allAssignments c) {v : Nat} (hv : v < c.int_var_domains.length) :
    A.intAt v ∈ (c.int_domain v).enumerate := by
  rw [mem_allAssignments] at hA
  obtain ⟨bs, is, -, his, rfl⟩ := hA
  rw [mem_intTuples] at his
  obtain ⟨hl, hmem⟩ := his
  have h1 : v < is.length := by omega
  rw [mkAsg_intAt h1]
  have := hmem v h1 hv
  simp only [List.get_eq_getElem] at this
  have hd : c.int_domain v = c.int_var_domains[v] := List.getD_eq_getElem _ _ hv
  rw [hd]
  exact this

theorem readout_boolAt {c : CSP} {A : Assignment} {v : Nat}
    (h : v < c.bool_var_count) : (readout c A).boolAt v = modelBool c A v := by
  unfold readout
  rw [mkAsg_boolAt (by simpa using h)]
  simp

theorem readout_intAt {c : CSP} {A : Assignment} {v : Nat}
    (h : v < c.int_var_domains.length) : (readout c A).intAt v = modelInt c A v := by
  unfold readout
  rw [mkAsg_intAt (by simpa using h)]
  simp

/-- An assignment in the space has no Boolean entry beyond the allocated
variables. -/
theorem allAssignments_boolAt_high {c : CSP} {A : Assignment}
    (hA : A ∈ allAssignments c) {v : Nat} (hv : c.bool_var_count ≤ v) :
    A.boolAt v = false := by
  rw [mem_allAssignments] at hA
  obtain ⟨bs, is, hbs, -, rfl⟩ := hA
  rw [mem_boolTuples] at hbs
  unfold mkAsg Assignment.boolAt
  rw [alookup_idxPairs, if_neg (by omega)]
  rfl

/-- An assignment in the space has no integer entry beyond the allocated
variables. -/
theorem allAssignments_intAt_high {c : CSP} {A : Assignment}
    (hA : A ∈ allAssignments c) {v : Nat} (hv : c.int_var_domains.length ≤ v) :
    A.intAt v = 0 := by
  rw [mem_allAssignments] at hA
  obtain ⟨bs, is, -, his, rfl⟩ := hA
  have hl := (mem_intTuples.mp his).1
  unfold mkAsg Assignment.intAt
  rw [alookup_idxPairs, if_neg (by omega)]
  rfl

/-- The readout has the same boolAt defaults beyond the allocated range. -/
theorem readout_boolAt_high {c : CSP} {A : Assignment} {v : Nat}
    (hv : c.bool_var_count ≤ v) : (readout c A).boolAt v = false := by
  unfold readout mkAsg Assignment.boolAt
  rw [alookup_idxPairs, if_neg (by simp; omega)]
  rfl

theorem readout_intAt_high {c : CSP} {A : Assignment} {v : Nat}
    (hv : c.int_var_domains.length ≤ v) : (readout c A).intAt v = 0 := by
  unfold readout mkAsg Assignment.intAt
  rw [alookup_idxPairs, if_neg (by simp; omega)]
  rfl

/-- The readout satisfies exactly the statements the underlying model
satisfies: they agree on every used variable. -/
theorem readout_sat {c : CSP} {A : Assignment} (hA : A ∈ allAssignments c) :
    satisfiesCSP (readout c A) c = satisfiesCSP A c := by
  apply satisfiesCSP_congr
  · intro v hv
    by_cases h : v < c.bool_var_count
    · rw [readout_boolAt h]
      unfold modelBool
      rw [if_pos hv]
    · rw [readout_boolAt_high (by omega), allAssignments_boolAt_high hA (by omega)]
  · intro v hv
    by_cases h : v < c.int_var_domains.length
    · rw [readout_intAt h]
      unfold modelInt
      rw [if_pos hv]
    · rw [readout_intAt_high (by omega), allAssignments_intAt_high hA (by omega)]

/-- The readout stays inside the assignment space: fallback values are
domain values (I3/I4). -/
theorem readout_mem {c : CSP} {A : Assignment}
    (hwf : ∀ d ∈ c.int_var_domains, d.WF) (hA : A ∈ allAssignments c) :
    readout c A ∈ allAssignments c := by
  rw [mem_allAssignments]
  refine ⟨_, _, ?_, ?_, rfl⟩
  · rw [mem_boolTuples]
    simp
  · rw [mem_intTuples]
    constructor
    · simp
    · intro i h1 h2
      simp only [List.get_eq_getElem, List.getElem_map, List.getElem_range]
      have hi : i < c.int_var_domains.length := by simpa using h2
      have hd : c.int_domain i = c.int_var_domains[i] := List.getD_eq_getElem _ _ hi
      unfold modelInt
      by_cases hu : usedInt c i = true
      · rw [if_pos hu]
        exact hd ▸ allAssignments_int_mem hA hi
      · rw [if_neg hu, hd]
        exact Domain.lower_bound_mem (hwf _ (List.getElem_mem hi))

/-- `solve` extracted: a successful solve yields the readout of a
satisfying member of the space. -/
theorem solve_some {o : SatOracle} {c : CSP} {m : Assignment}
    (h : solve o c = some m) :
    ∃ A, A ∈ allAssignments c ∧ satisfiesCSP A c = true ∧ m = readout c A := by
  unfold solve at h
  cases hp : o.pick (satAssignments c) with
  | none => rw [hp] at h; exact Option.noConfusion h
  | some A =>
    rw [hp] at h
    have h2 : readout c A = m := by injection h
    have hmem := o.pick_mem _ _ hp
    unfold satAssignments at hmem
    rw [List.mem_filter] at hmem
    exact ⟨A, hmem.1, hmem.2, h2.symm⟩

/-- `solve` returns `none` exactly when no assignment satisfies the CSP. -/
theorem solve_none_iff {o : SatOracle} {c : CSP} :
    solve o c = none ↔ satAssignments c = [] := by
  unfold solve
  constructor
  · intro h
    cases hp : o.pick (satAssignments c) with
    | none => exact o.pick_none _ hp
    | some A => rw [hp] at h; exact Option.noConfusion h
  · intro h
    rw [h]
    cases hp : o.pick [] with
    | none => simp
    | some A => exact absurd (o.pick_mem _ _ hp) (by simp)

theorem evalDisj_append (A : Assignment) (l1 l2 : List BoolExpr) :
    evalDisj A (l1 ++ l2) = (evalDisj A l1 || evalDisj A l2) := by
  induction l1 with
  | nil => simp [evalDisj]
  | cons e rest ih => simp [evalDisj, ih, Bool.or_assoc]

theorem evalDisj_map_any {α : Type} (A : Assignment) (f : α → BoolExpr) (l : List α) :
    evalDisj A (l.map f) = l.any (fun x => eval_bool_expr A (f x)) := by
  induction l with
  | nil => simp [evalDisj]
  | cons x rest ih => simp [evalDisj, ih]

/-- The Boolean literal pushed into the refutation evaluates to `true`
iff the assignment differs from the model on that variable. -/
theorem eval_bool_literal (B m : Assignment) (v : Nat) :
    eval_bool_expr B
        (if m.boolAt v then BoolExpr.Not (BoolExpr.Var v) else BoolExpr.Var v) = true ↔
      B.boolAt v ≠ m.boolAt v := by
  rcases hmb : m.boolAt v with _ | _
  · simp [eval_bool_expr]
  · simp [eval_bool_expr]

/-- The integer disequality pushed into the refutation evaluates to
`true` iff the assignment differs from the model on that variable. -/
theorem eval_int_literal (B m : Assignment) (v : Nat) :
    eval_bool_expr B
        (BoolExpr.Cmp CmpOp.Ne (IntExpr.Var v) (IntExpr.Const (m.intAt v))) = true ↔
      B.intAt v ≠ m.intAt v := by
  simp [eval_bool_expr, eval_int_expr, CmpOp.apply]

/-- Semantics of the refutation expression: it evaluates to `true`
exactly when the assignment differs from the model on some listed
variable. -/
theorem refutation_expr_eval_iff (B : Assignment) (bool_vars int_vars : List Nat)
    (m : Assignment) :
    eval_bool_expr B (refutation_expr bool_vars int_vars m) = true ↔
      ((∃ v ∈ bool_vars, B.boolAt v ≠ m.boolAt v) ∨
        ∃ v ∈ int_vars, B.intAt v ≠ m.intAt v) := by
  show evalDisj B _ = true ↔ _
  rw [evalDisj_append, evalDisj_map_any, evalDisj_map_any]
  simp only [Bool.or_eq_true, List.any_eq_true]
  constructor
  · rintro (⟨v, hv, he⟩ | ⟨v, hv, he⟩)
    · exact Or.inl ⟨v, hv, (eval_bool_literal B m v).mp he⟩
    · exact Or.inr ⟨v, hv, (eval_int_literal B m v).mp he⟩
  · rintro (⟨v, hv, he⟩ | ⟨v, hv, he⟩)
    · exact Or.inl ⟨v, hv, (eval_bool_literal B m v).mpr he⟩
    · exact Or.inr ⟨v, hv, (eval_int_literal B m v).mpr he⟩

theorem idxPairs_append {β : Type} (s : Nat) (xs ys : List β) :
    idxPairs s (xs ++ ys) = idxPairs s xs ++ idxPairs (s + xs.length) ys := by
  induction xs generalizing s with
  | nil => simp [idxPairs]
  | cons x rest ih =>
    simp only [List.cons_append, idxPairs, List.length_cons, List.append_eq]
    rw [ih (s + 1), show s + (rest.length + 1) = s + 1 + rest.length from by omega]

theorem foldl_set_bool_range (m : Assignment) (n : Nat) :
    ((List.range n).foldl (fun a v => a.set_bool v (m.boolAt v)) Assignment.new) =
      ⟨idxPairs 0 ((List.range n).map m.boolAt), []⟩ := by
  induction n with
  | zero => rfl
  | succ k ih =>
    rw [List.range_succ, List.foldl_append, ih]
    simp only [List.foldl_cons, List.foldl_nil]
    unfold Assignment.set_bool
    simp only [Assignment.mk.injEq, and_true]
    rw [ainsert_of_absent _ _ _ ?_]
    · rw [List.map_append, idxPairs_append]
      simp [idxPairs]
    · rw [alookup_idxPairs, if_neg (by simp)]

theorem foldl_set_int_range (m : Assignment) (n : Nat) (bv : List (Nat × Bool)) :
    ((List.range n).foldl (fun a v => a.set_int v (m.intAt v))
        (Assignment.mk bv [])) =
      ⟨bv, idxPairs 0 ((List.range n).map m.intAt)⟩ := by
  induction n with
  | zero => rfl
  | succ k ih =>
    rw [List.range_succ, List.foldl_append, ih]
    simp only [List.foldl_cons, List.foldl_nil]
    unfold Assignment.set_int
    simp only [Assignment.mk.injEq, true_and]
    rw [ainsert_of_absent _ _ _ ?_]
    · rw [List.map_append, idxPairs_append]
      simp [idxPairs]
    · rw [alookup_idxPairs, if_neg (by simp)]

/-- Recording the model values of every allocated variable reproduces a
canonical member of the assignment space. -/
theorem recordAssignment_eq {c : CSP} {m : Assignment} (hm : m ∈ allAssignments c) :
    recordAssignment (List.range c.bool_var_count)
      (List.range c.int_var_domains.length) m = m := by
  obtain ⟨bs, is, hbs, his, rfl⟩ := mem_allAssignments.mp hm
  have hbsl : bs.length = c.bool_var_count := mem_boolTuples.mp hbs
  have hisl : is.length = c.int_var_domains.length := (mem_intTuples.mp his).1
  unfold recordAssignment
  rw [foldl_set_bool_range, foldl_set_int_range]
  have h1 : (List.range c.bool_var_count).map (mkAsg bs is).boolAt = bs := by
    apply List.ext_getElem (by simp [hbsl])
    intro i hi1 hi2
    simp only [List.getElem_map, List.getElem_range]
    exact mkAsg_boolAt hi2
  have h2 : (List.range c.int_var_domains.length).map (mkAsg bs is).intAt = is := by
    apply List.ext_getElem (by simp [hisl])
    intro i hi1 hi2
    simp only [List.getElem_map, List.getElem_range]
    exact mkAsg_intAt hi2
  rw [h1, h2]
  rfl

/-- Adding an expression leaves the assignment space unchanged. -/
theorem allAssignments_add_expr (c : CSP) (e : BoolExpr) :
    allAssignments (c.add_expr e) = allAssignments c := rfl

theorem satisfiesCSP_add_expr (B : Assignment) (c : CSP) (e : BoolExpr) :
    satisfiesCSP B (c.add_expr e) = (satisfiesCSP B c && eval_bool_expr B e) := by
  unfold satisfiesCSP CSP.add_expr CSP.add_constraint
  simp [satisfiesStmt]

theorem satAssignments_nodup {c : CSP} (hwf : ∀ d ∈ c.int_var_domains, d.WF) :
    (satAssignments c).Nodup :=
  (allAssignments_nodup hwf).filter _

/-- For two members of the space, the refutation expression over all
allocated variables evaluates to `true` iff the assignments differ. -/
theorem refutation_expr_eval_ne {c : CSP} {B m : Assignment}
    (hB : B ∈ allAssignments c) (hm : m ∈ allAssignments c) :
    eval_bool_expr B (refutation_expr (List.range c.bool_var_count)
      (List.range c.int_var_domains.length) m) = true ↔ B ≠ m := by
  rw [refutation_expr_eval_iff]
  constructor
  · rintro (⟨v, -, hne⟩ | ⟨v, -, hne⟩) rfl <;> exact hne rfl
  · intro hne
    by_contra hcon
    push_neg at hcon
    obtain ⟨h1, h2⟩ := hcon
    refine hne (allAssignments_ext hB hm ?_ ?_)
    · intro v hv
      exact h1 v (List.mem_range.mpr hv)
    · intro v hv
      exact h2 v (List.mem_range.mpr hv)

/-- Appending the refutation expression for a model removes exactly that
model from the satisfying set. -/
theorem satAssignments_add_refutation {c : CSP} {m : Assignment}
    (hwf : ∀ d ∈ c.int_var_domains, d.WF) (hm : m ∈ allAssignments c) :
    satAssignments (c.add_expr (refutation_expr (List.range c.bool_var_count)
        (List.range c.int_var_domains.length) m)) = (satAssignments c).erase m := by
  rw [(satAssignments_nodup hwf).erase_eq_filter]
  unfold satAssignments
  rw [allAssignments_add_expr, List.filter_filter]
  apply List.filter_congr
  intro B hB
  rw [satisfiesCSP_add_expr]
  rcases hs : satisfiesCSP B c with _ | _
  · simp
  · simp only [Bool.and_true, Bool.true_and]
    rcases he : eval_bool_expr B (refutation_expr _ _ m) with _ | _
    · have : ¬(B ≠ m) := fun hne =>
        by rw [(refutation_expr_eval_ne hB hm).mpr hne] at he; exact Bool.noConfusion he
      push_neg at this
      subst this
      simp
    · have hne : B ≠ m := (refutation_expr_eval_ne hB hm).mp he
      simp [bne_iff_ne, hne]

theorem enumerateLoop_perm (o : SatOracle) :
    ∀ (fuel : Nat) (c : CSP), (∀ d ∈ c.int_var_domains, d.WF) →
      (satAssignments c).length ≤ fuel →
      List.Perm
        (enumerateLoop o (List.range c.bool_var_count)
          (List.range c.int_var_domains.length) fuel c)
        (satAssignments c) := by
  intro fuel
  induction fuel with
  | zero =>
    intro c hwf hlen
    rw [List.length_eq_zero.mp (Nat.le_zero.mp hlen)]
    exact List.Perm.refl _
  | succ k ih =>
    intro c hwf hlen
    cases hsolve : solve o c with
    | none =>
      simp only [enumerateLoop, hsolve]
      rw [solve_none_iff.mp hsolve]
    | some m =>
      simp only [enumerateLoop, hsolve]
      obtain ⟨A, hA, hsatA, rfl⟩ := solve_some hsolve
      have hm_mem : readout c A ∈ allAssignments c := readout_mem hwf hA
      have hm_sat : satisfiesCSP (readout c A) c = true := by
        rw [readout_sat hA]; exact hsatA
      have hm_in : readout c A ∈ satAssignments c :=
        List.mem_filter.mpr ⟨hm_mem, hm_sat⟩
      rw [recordAssignment_eq hm_mem]
      have hblock := satAssignments_add_refutation hwf hm_mem
      have hlen2 : (satAssignments (c.add_expr (refutation_expr
          (List.range c.bool_var_count) (List.range c.int_var_domains.length)
          (readout c A)))).length ≤ k := by
        rw [hblock, List.length_erase_of_mem hm_in]
        have hpos : 0 < (satAssignments c).length := List.length_pos_of_mem hm_in
        omega
      have ihapp := ih (c.add_expr (refutation_expr (List.range c.bool_var_count)
          (List.range c.int_var_domains.length) (readout c A))) hwf hlen2
      refine List.Perm.trans (List.Perm.cons _ ihapp) ?_
      rw [hblock]
      exact (List.perm_cons_erase hm_in).symm

/-- The enumeration returns exactly the satisfying assignments (as a
multiset / up to permutation). -/
theorem enumerate_valid_assignments_perm (o : SatOracle) (c : CSP)
    (hwf : ∀ d ∈ c.int_var_domains, d.WF) :
    List.Perm (enumerate_valid_assignments o c) (satAssignments c) := by
  apply enumerateLoop_perm
  · exact hwf
  · have := List.length_filter_le (fun A => satisfiesCSP A c) (allAssignments c)
    unfold satAssignments
    omega

/-- A lookup hit names an entry of the association list. -/
theorem alookup_mem {β : Type} {l : List (Nat × β)} {k : Nat} {x : β}
    (h : alookup l k = some x) : (k, x) ∈ l := by
  induction l with
  | nil => simp [alookup] at h
  | cons p rest ih =>
    obtain ⟨k0, x0⟩ := p
    simp only [alookup] at h
    by_cases h0 : k0 = k
    · rw [if_pos h0] at h
      injection h with h
      subst h0
      subst h
      exact List.mem_cons_self _ _
    · rw [if_neg h0] at h
      exact List.mem_cons_of_mem _ (ih h)

/-- On the encoded path, the decoded value is a member of the encoding
domain. -/
theorem get_int_value_mem {em : EncodeMap} {model : SATModel} {nv : Nat}
    {enc : IntEncoding} (henc : alookup em.int_map nv = some enc)
    (hlen : enc.lits.length + 1 = enc.domain.length) {x : Int}
    (h : em.get_int_value model nv = some x) : x ∈ enc.domain := by
  unfold EncodeMap.get_int_value at h
  rw [henc] at h
  injection h with h
  dsimp only at h
  have hcount :
      enc.lits.countP (fun (l : Lit) => Bool.xor (model.assignment l.var) l.is_negated) <
        enc.domain.length := by
    have hle := List.countP_le_length
      (fun (l : Lit) => Bool.xor (model.assignment l.var) l.is_negated) (l := enc.lits)
    omega
  rw [List.getD_eq_getElem _ _ hcount] at h
  rw [← h]
  exact List.getElem_mem hcount

/-- The state transition never consults the SAT back-end's answer. -/
theorem applyOp_state_oracle_free (sat1 sat2 : List (List Lit) → Option (Nat → Bool))
    (s : SolverState) (op : SolverOp) :
    (applyOp sat1 s op).1 = (applyOp sat2 s op).1 := by
  cases op <;> rfl

/-- A binding present in an association list survives appending. -/
theorem alookup_append_of_some {β : Type} {l l2 : List (Nat × β)} {k : Nat} {x : β}
    (h : alookup l k = some x) : alookup (l ++ l2) k = some x := by
  induction l with
  | nil => simp [alookup] at h
  | cons p rest ih =>
    obtain ⟨k0, x0⟩ := p
    rw [List.cons_append]
    simp only [alookup] at h ⊢
    by_cases h0 : k0 = k
    · rwa [if_pos h0] at h ⊢
    · rw [if_neg h0] at h ⊢
      exact ih h

theorem MapsPreserved.refl (s : SolverState) : MapsPreserved s s :=
  ⟨fun _ _ h => h, fun _ _ h => h, fun _ _ h => h, fun _ _ h => h⟩

theorem MapsPreserved.trans {a b c : SolverState}
    (h1 : MapsPreserved a b) (h2 : MapsPreserved b c) : MapsPreserved a c :=
  ⟨fun v nv h => h2.1 v nv (h1.1 v nv h),
   fun v nv h => h2.2.1 v nv (h1.2.1 v nv h),
   fun nv l h => h2.2.2.1 nv l (h1.2.2.1 nv l h),
   fun nv e h => h2.2.2.2 nv e (h1.2.2.2 nv e h)⟩

theorem registerBoolVar_preserves (s : SolverState) (v : Nat) :
    MapsPreserved s (registerBoolVar s v) := by
  unfold registerBoolVar
  cases alookup s.nm.bool_map v with
  | some nv => exact MapsPreserved.refl s
  | none =>
    refine ⟨fun w nw h => ?_, fun w nw h => h, fun nv l h => h, fun nv e h => h⟩
    exact alookup_append_of_some h

theorem registerIntVar_preserves (s : SolverState) (v : Nat) :
    MapsPreserved s (registerIntVar s v) := by
  unfold registerIntVar
  cases alookup s.nm.int_map v with
  | some nv => exact MapsPreserved.refl s
  | none =>
    refine ⟨fun w nw h => h, fun w nw h => ?_, fun nv l h => h, fun nv e h => h⟩
    exact alookup_append_of_some h

theorem encodeBoolVar_preserves (s : SolverState) (nv : Nat) :
    MapsPreserved s (encodeBoolVar s nv) := by
  unfold encodeBoolVar
  exact ⟨fun w nw h => h, fun w nw h => h, fun nw l h => alookup_append_of_some h,
    fun nw e h => h⟩

theorem encodeIntVar_preserves (s : SolverState) (nv : Nat) :
    MapsPreserved s (encodeIntVar s nv) := by
  unfold encodeIntVar
  exact ⟨fun w nw h => h, fun w nw h => h, fun nw l h => h,
    fun nw e h => alookup_append_of_some h⟩

theorem foldl_preserves {α : Type} (f : SolverState → α → SolverState)
    (hf : ∀ s x, MapsPreserved s (f s x)) :
    ∀ (l : List α) (s : SolverState), MapsPreserved s (l.foldl f s) := by
  intro l
  induction l with
  | nil => intro s; exact MapsPreserved.refl s
  | cons x rest ih =>
    intro s
    exact (hf s x).trans (ih (f s x))

theorem normalizeStmt_preserves (s : SolverState) (st : Stmt) :
    MapsPreserved s (normalizeStmt s st) := by
  unfold normalizeStmt
  exact (foldl_preserves _ registerBoolVar_preserves _ s).trans
    (foldl_preserves _ registerIntVar_preserves _ _)

theorem normalize_preserves (s : SolverState) : MapsPreserved s (normalize s) := by
  unfold normalize
  have h := foldl_preserves _ normalizeStmt_preserves (s.csp.stmts.drop s.stmt_cursor) s
  exact ⟨h.1, h.2.1, h.2.2.1, h.2.2.2⟩

theorem encode_preserves (s : SolverState) : MapsPreserved s (encode s) := by
  unfold encode
  have h1 := foldl_preserves _ encodeBoolVar_preserves
    (List.range' s.enc_bool_cursor (s.norm_bool_count - s.enc_bool_cursor)) s
  have h2 := foldl_preserves _ encodeIntVar_preserves
    (List.range' s.enc_int_cursor (s.norm_int_count - s.enc_int_cursor))
    ((List.range' s.enc_bool_cursor (s.norm_bool_count - s.enc_bool_cursor)).foldl
      encodeBoolVar s)
  have h := h1.trans h2
  exact ⟨h.1, h.2.1, h.2.2.1, h.2.2.2⟩

theorem applyOp_preserves (sat : List (List Lit) → Option (Nat → Bool))
    (s : SolverState) (op : SolverOp) : MapsPreserved s (applyOp sat s op).1 := by
  cases op with
  | newBoolVar => exact MapsPreserved.refl s
  | newIntVar d => exact MapsPreserved.refl s
  | addConstraint st => exact MapsPreserved.refl s
  | solveOp => exact (normalize_preserves s).trans (encode_preserves _)

theorem runOps_preserves (sat : List (List Lit) → Option (Nat → Bool)) :
    ∀ (ops : List SolverOp) (s : SolverState), MapsPreserved s (runOps sat s ops) := by
  intro ops
  induction ops with
  | nil => intro s; exact MapsPreserved.refl s
  | cons op rest ih =>
    intro s
    exact (applyOp_preserves sat s op).trans (ih _)

/-- Running an operation sequence from the fresh state never consults
the SAT back-end's answers, so the entire compiled state is independent
of the back-end. -/
theorem runOps_oracle_free (sat1 sat2 : List (List Lit) → Option (Nat → Bool)) :
    ∀ (ops : List SolverOp) (s : SolverState), runOps sat1 s ops = runOps sat2 s ops := by
  intro ops
  induction ops with
  | nil => intro s; rfl
  | cons op rest ih =>
    intro s
    show runOps sat1 ((applyOp sat1 s op).1) rest = runOps sat2 ((applyOp sat2 s op).1) rest
    rw [applyOp_state_oracle_free sat1 sat2 s op]
    exact ih _

/-! ## The claims -/

/-- C1 — Soundness of `solve`: for every well-formed CSP, whenever
`solve` returns a model, the assignment read off that model (the value
of every allocated variable) satisfies every statement of the CSP under
the expression evaluator of section 4.1. -/
theorem C1_solve_sound (o : SatOracle) (c : CSP)
    (hwf : ∀ d ∈ c.int_var_domains, d.WF) {A : Assignment}
    (h : solve o c = some A) :
    ∀ s ∈ c.stmts, satisfiesStmt A s = true := by
  obtain ⟨A0, hA0, hsat, rfl⟩ := solve_some h
  have hall : satisfiesCSP (readout c A0) c = true := by
    rw [readout_sat hA0]
    exact hsat
  unfold satisfiesCSP at hall
  exact fun st hst => List.all_eq_true.mp hall st hst

theorem C1_solve_sound_witness :
    satisfiesStmt (mkAsg [true] []) (Stmt.Expr (BoolExpr.Var 0)) = true :=
  C1_solve_sound headOracle cexCSP1 (by decide) (by decide)
    (Stmt.Expr (BoolExpr.Var 0)) (List.mem_cons_self _ _)

/-- C2 (amended) — the multiset of assignments returned by
`enumerate_valid_assignments` equals the multiset of ALL assignments
over the caller-allocated variables that satisfy the CSP under the
evaluator of section 4.1 (no canonicalization: once the first blocking
expression mentions a previously unused variable, that variable becomes
used, and the enumeration covers every value of its domain; only the
first returned assignment carries the `false` / lower-bound fallback
values). -/
theorem C2_enumerate_multiset (o : SatOracle) (c : CSP)
    (hwf : ∀ d ∈ c.int_var_domains, d.WF) :
    List.Perm (enumerate_valid_assignments o c) (satAssignments c) :=
  enumerate_valid_assignments_perm o c hwf

theorem C2_enumerate_multiset_witness :
    List.Perm (enumerate_valid_assignments headOracle cexCSP2) (satAssignments cexCSP2) :=
  C2_enumerate_multiset headOracle cexCSP2 (by decide)

/-- C2, as stated, is false: for a CSP with one Boolean variable used in
no statement, the enumeration returns both assignments (`x = false` and
`x = true`), while the multiset of satisfying assignments with the
unused variable canonicalized to `false` holds two copies of
`x = false`. -/
theorem C2_counterexample :
    ¬ List.Perm (enumerate_valid_assignments headOracle cexCSP2)
        ((satAssignments cexCSP2).map (readout cexCSP2)) := by decide

/-- C3 — Blocking-clause construction: after a model is found, the next
step of the enumeration loop appends (as an ordinary CSP Boolean
expression, via `add_expr`) the refutation expression, whose evaluation
is exactly the disjunction over all listed Boolean variables of
"(xᵢ = ¬bᵢ)" and over all listed integer variables of "(yⱼ ≠ vⱼ)". -/
theorem C3_blocking_clause (o : SatOracle) (bvs ivs : List Nat) (fuel : Nat)
    (c : CSP) (m B : Assignment) (h : solve o c = some m) :
    enumerateLoop o bvs ivs (fuel + 1) c =
      recordAssignment bvs ivs m ::
        enumerateLoop o bvs ivs fuel (c.add_expr (refutation_expr bvs ivs m)) ∧
    (eval_bool_expr B (refutation_expr bvs ivs m) = true ↔
      ((∃ v ∈ bvs, B.boolAt v ≠ m.boolAt v) ∨ ∃ v ∈ ivs, B.intAt v ≠ m.intAt v)) := by
  constructor
  · simp only [enumerateLoop, h]
  · exact refutation_expr_eval_iff B bvs ivs m

theorem C3_blocking_clause_witness :
    enumerateLoop headOracle [0] [] 1 cexCSP1 =
      recordAssignment [0] [] (mkAsg [true] []) ::
        enumerateLoop headOracle [0] [] 0
          (cexCSP1.add_expr (refutation_expr [0] [] (mkAsg [true] []))) ∧
    (eval_bool_expr (mkAsg [false] []) (refutation_expr [0] [] (mkAsg [true] [])) = true ↔
      ((∃ v ∈ [0], (mkAsg [false] []).boolAt v ≠ (mkAsg [true] []).boolAt v) ∨
        ∃ v ∈ ([] : List Nat),
          (mkAsg [false] []).intAt v ≠ (mkAsg [true] []).intAt v)) :=
  C3_blocking_clause headOracle [0] [] 0 cexCSP1 (mkAsg [true] []) (mkAsg [false] [])
    (by decide)

/-- C4 — `solve` returns `None` iff the (spec-modelled) SAT back-end
finds the encoded instance unsatisfiable, i.e. iff no assignment over
the allocated variables satisfies the CSP; an unsatisfiable problem is
exactly the absent result, and every other case returns a model. -/
theorem C4_solve_none_iff (o : SatOracle) (c : CSP) :
    solve o c = none ↔ ∀ A ∈ allAssignments c, satisfiesCSP A c = false := by
  rw [solve_none_iff]
  unfold satAssignments
  constructor
  · intro h A hA
    by_contra hc
    have hmem : A ∈ (allAssignments c).filter (fun A => satisfiesCSP A c) :=
      List.mem_filter.mpr ⟨hA, by revert hc; cases satisfiesCSP A c <;> simp⟩
    rw [h] at hmem
    exact absurd hmem (List.not_mem_nil _)
  · intro h
    rw [List.filter_eq_nil_iff]
    intro A hA
    rw [h A hA]
    simp

theorem C4_solve_none_iff_witness : solve headOracle cexCSP3 = none :=
  (C4_solve_none_iff headOracle cexCSP3).mpr (by decide)

/-- C5 — Model read fallback: `get_bool` looks up the `NormalizeMap` and
then the `EncodeMap` and returns `false` whenever either lookup is
absent; `get_int` follows the same chain and returns the lower bound of
the variable's original domain whenever either lookup is absent. -/
theorem C5_model_read_fallback (m : Model) (v w : Nat)
    (hb : m.normalize_map.get_bool_var v = none ∨
      ∃ nv, m.normalize_map.get_bool_var v = some nv ∧
        m.encode_map.get_bool_var nv = none)
    (hi : m.normalize_map.get_int_var w = none ∨
      ∃ nw, m.normalize_map.get_int_var w = some nw ∧
        m.encode_map.get_int_value m.model nw = none) :
    m.get_bool v = false ∧ m.get_int w = (m.csp.int_domain w).lower_bound := by
  constructor
  · unfold Model.get_bool
    rcases hb with h | ⟨nv, h1, h2⟩
    · rw [h]
      rfl
    · rw [h1]
      show ((m.encode_map.get_bool_var nv).map _).getD false = false
      rw [h2]
      rfl
  · unfold Model.get_int
    rcases hi with h | ⟨nw, h1, h2⟩
    · rw [h]
      rfl
    · rw [h1]
      show (m.encode_map.get_int_value m.model nw).getD _ = _
      rw [h2]
      rfl

theorem C5_model_read_fallback_witness :
    cexModel1.get_bool 0 = false ∧
      cexModel1.get_int 0 = (cexModel1.csp.int_domain 0).lower_bound :=
  C5_model_read_fallback cexModel1 0 0 (Or.inl rfl) (Or.inl rfl)

/-- C6 — Domain faithfulness: for a well-formed model view, `get_int`
returns a value inside the variable's original domain, both on the
encoded path (the order-encoding decode picks one of the `n` domain
values) and on the absent-mapping fallback path (the lower bound is a
domain member). -/
theorem C6_get_int_in_domain (m : Model) (v : Nat)
    (hwf : (m.csp.int_domain v).WF) (hmwf : ModelWF m) :
    m.get_int v ∈ (m.csp.int_domain v).enumerate := by
  unfold Model.get_int
  cases hnm : m.normalize_map.get_int_var v with
  | none =>
    simpa using Domain.lower_bound_mem hwf
  | some nv =>
    cases henc : alookup m.encode_map.int_map nv with
    | none =>
      have hval : m.encode_map.get_int_value m.model nv = none := by
        unfold EncodeMap.get_int_value
        rw [henc]
        rfl
      show ((some nv).bind (fun nw => m.encode_map.get_int_value m.model nw)).getD _ ∈ _
      rw [Option.some_bind, hval]
      simpa using Domain.lower_bound_mem hwf
    | some enc =>
      have hpmem : (v, nv) ∈ m.normalize_map.int_map := by
        unfold NormalizeMap.get_int_var at hnm
        exact alookup_mem hnm
      have hok := hmwf (v, nv) hpmem
      unfold encOkB at hok
      rw [henc] at hok
      simp only [Bool.and_eq_true, decide_eq_true_eq, beq_iff_eq] at hok
      have hp : enc.domain = (m.csp.int_domain v).enumerate ∧
          enc.lits.length + 1 = enc.domain.length := hok
      have hval : m.encode_map.get_int_value m.model nv =
          some (enc.domain.getD
            (enc.lits.countP (fun (l : Lit) =>
              Bool.xor (m.model.assignment l.var) l.is_negated)) 0) := by
        unfold EncodeMap.get_int_value
        rw [henc]
        rfl
      show ((some nv).bind (fun nw => m.encode_map.get_int_value m.model nw)).getD _ ∈ _
      rw [Option.some_bind, hval]
      have hmem := get_int_value_mem henc hp.2 hval
      rw [← hp.1]
      simpa using hmem

theorem C6_get_int_in_domain_witness :
    cexModel2.get_int 0 ∈ (cexModel2.csp.int_domain 0).enumerate :=
  C6_get_int_in_domain cexModel2 0 (by decide) (by decide)

/-- C7 — Determinism of compilation: two integrators fed the identical
operation sequence reach identical compiled states — in particular the
same CNF (same SAT variable numbering, same clauses in the same order) —
no matter which SAT back-ends answer the solve calls: the state
transition never reads the back-end's answer. -/
theorem C7_deterministic_compilation
    (sat1 sat2 : List (List Lit) → Option (Nat → Bool)) (ops : List SolverOp) :
    runOps sat1 SolverState.init ops = runOps sat2 SolverState.init ops :=
  runOps_oracle_free sat1 sat2 ops SolverState.init

/-- C8 — Monotone incremental encoding: running any further operations
(adding statements, re-running solve) never mutates or renumbers an
existing `NormalizeMap` or `EncodeMap` entry: every mapping present
before is present, unchanged, afterwards, so pre-existing SAT variables
keep their indices. -/
theorem C8_monotone_encoding (sat : List (List Lit) → Option (Nat → Bool))
    (s : SolverState) (ops : List SolverOp) :
    MapsPreserved s (runOps sat s ops) :=
  runOps_preserves sat ops s

theorem C8_monotone_encoding_witness :
    alookup (runOps satAllFalse
        (runOps satAllFalse SolverState.init
          [SolverOp.newBoolVar, SolverOp.addConstraint (Stmt.Expr (BoolExpr.Var 0)),
            SolverOp.solveOp])
        [SolverOp.addConstraint (Stmt.Expr (BoolExpr.Not (BoolExpr.Var 0))),
          SolverOp.solveOp]).nm.bool_map 0 = some 0 :=
  (C8_monotone_encoding satAllFalse
      (runOps satAllFalse SolverState.init
        [SolverOp.newBoolVar, SolverOp.addConstraint (Stmt.Expr (BoolExpr.Var 0)),
          SolverOp.solveOp])
      [SolverOp.addConstraint (Stmt.Expr (BoolExpr.Not (BoolExpr.Var 0))),
        SolverOp.solveOp]).1 0 0 (by decide)

/-- C9 — Construction-error atomicity: a `new_int_var` with an empty
domain or an `add_constraint` referencing an unknown variable handle is
reported as an error immediately at that call, and the failing call
returns the integrator state unchanged. -/
theorem C9_construction_atomic (s : SolverState) (d : Domain) (st : Stmt)
    (hd : d.enumerate.isEmpty = true) (hst : stmtVarsOk s.csp st = false) :
    new_int_var_checked s d = (Except.error "empty domain", s) ∧
      add_constraint_checked s st = (Except.error "unknown variable handle", s) := by
  constructor
  · unfold new_int_var_checked
    rw [if_pos hd]
  · unfold add_constraint_checked
    rw [if_neg (by rw [hst]; exact Bool.false_ne_true)]

theorem C9_construction_atomic_witness :
    new_int_var_checked SolverState.init ⟨[]⟩ =
        (Except.error "empty domain", SolverState.init) ∧
      add_constraint_checked SolverState.init (Stmt.Expr (BoolExpr.Var 0)) =
        (Except.error "unknown variable handle", SolverState.init) :=
  C9_construction_atomic SolverState.init ⟨[]⟩ (Stmt.Expr (BoolExpr.Var 0))
    (by decide) (by decide)

/-- C10 — Termination of enumeration: for finitely many variables over
finite domains the loop stops — it returns at most one assignment per
point of the assignment space (so it runs at most `|space| + 1`
iterations, the last being the UNSAT round), and each blocking
expression removes exactly the found assignment from the satisfying
set. -/
theorem C10_enumeration_terminates (o : SatOracle) (c : CSP)
    (hwf : ∀ d ∈ c.int_var_domains, d.WF) :
    (enumerate_valid_assignments o c).length ≤ (allAssignments c).length ∧
      ∀ m, solve o c = some m →
        satAssignments (c.add_expr (refutation_expr (List.range c.bool_var_count)
            (List.range c.int_var_domains.length) m)) =
          (satAssignments c).erase m := by
  constructor
  · have hperm := enumerate_valid_assignments_perm o c hwf
    rw [hperm.length_eq]
    exact List.length_filter_le _ _
  · intro m hm
    obtain ⟨A, hA, hsat, rfl⟩ := solve_some hm
    exact satAssignments_add_refutation hwf (readout_mem hwf hA)

theorem C10_enumeration_terminates_witness :
    (enumerate_valid_assignments headOracle cexCSP2).length ≤
      (allAssignments cexCSP2).length :=
  (C10_enumeration_terminates headOracle cexCSP2 (by decide)).1

end EnigmaCSP
